import Mathlib

/-
  Verification of the rmnc audio capture-and-reduction pipeline
  (src/main.rs: process_audio, start_audio_stream, render_plot).

  f32 values are modelled as extended rationals: a finite rational,
  +infinity, -infinity, or NaN.  The operations that the audited code
  performs on samples (min, max, abs, negation, comparison) are exact on
  IEEE floats, so the rational model is faithful for them; additions,
  multiplications and divisions appear only in render_plot and are
  modelled as exact rational arithmetic (the claims about render_plot
  only exercise paths on which float arithmetic is exact, or paths whose
  outcome does not depend on rounding).  Signed zero is not modelled.
-/

namespace Rmnc

/-- Model of an f32 value: finite rational, one of the two infinities, or NaN. -/
inductive F where
  | fin : ℚ → F
  | pinf : F
  | ninf : F
  | nan : F
deriving DecidableEq

/-- IEEE strict less-than on modelled f32 values (false whenever NaN is involved). -/
def F.lt : F → F → Bool
  | .nan, _ => false
  | _, .nan => false
  | .ninf, .ninf => false
  | .ninf, _ => true
  | _, .ninf => false
  | .fin a, .fin b => decide (a < b)
  | .fin _, .pinf => true
  | .pinf, _ => false

/-- IEEE less-or-equal on modelled f32 values (false whenever NaN is involved). -/
def F.le : F → F → Bool
  | .nan, _ => false
  | _, .nan => false
  | .ninf, _ => true
  | _, .ninf => false
  | .fin a, .fin b => decide (a ≤ b)
  | .fin _, .pinf => true
  | .pinf, .pinf => true
  | .pinf, _ => false

/-- Model of Rust `f32::min` (returns the non-NaN operand when one side is NaN). -/
def F.min (a b : F) : F :=
  if a = .nan then b else if b = .nan then a else if F.lt b a then b else a

/-- Model of Rust `f32::max` (returns the non-NaN operand when one side is NaN). -/
def F.max (a b : F) : F :=
  if a = .nan then b else if b = .nan then a else if F.lt a b then b else a

/-- Model of `f32::abs`. -/
def F.abs : F → F
  | .fin q => .fin |q|
  | .pinf => .pinf
  | .ninf => .pinf
  | .nan => .nan

/-- Model of f32 negation. -/
def F.neg : F → F
  | .fin q => .fin (-q)
  | .pinf => .ninf
  | .ninf => .pinf
  | .nan => .nan

/-- Model of f32 addition (exact on finite values). -/
def F.add : F → F → F
  | .nan, _ => .nan
  | _, .nan => .nan
  | .fin a, .fin b => .fin (a + b)
  | .fin _, .pinf => .pinf
  | .fin _, .ninf => .ninf
  | .pinf, .pinf => .pinf
  | .pinf, .fin _ => .pinf
  | .pinf, .ninf => .nan
  | .ninf, .ninf => .ninf
  | .ninf, .fin _ => .ninf
  | .ninf, .pinf => .nan

/-- Model of f32 multiplication (exact on finite values; zero times infinity is NaN). -/
def F.mul : F → F → F
  | .nan, _ => .nan
  | _, .nan => .nan
  | .fin a, .fin b => .fin (a * b)
  | .fin a, .pinf => if 0 < a then .pinf else if a < 0 then .ninf else .nan
  | .fin a, .ninf => if 0 < a then .ninf else if a < 0 then .pinf else .nan
  | .pinf, .fin b => if 0 < b then .pinf else if b < 0 then .ninf else .nan
  | .ninf, .fin b => if 0 < b then .ninf else if b < 0 then .pinf else .nan
  | .pinf, .pinf => .pinf
  | .pinf, .ninf => .ninf
  | .ninf, .pinf => .ninf
  | .ninf, .ninf => .pinf

/-- Model of f32 division (exact on finite values; signed zero not modelled). -/
def F.div : F → F → F
  | .nan, _ => .nan
  | _, .nan => .nan
  | .fin a, .fin b =>
      if b = 0 then (if a = 0 then .nan else if 0 < a then .pinf else .ninf)
      else .fin (a / b)
  | .fin _, .pinf => .fin 0
  | .fin _, .ninf => .fin 0
  | .pinf, .fin b => if b < 0 then .ninf else .pinf
  | .ninf, .fin b => if b < 0 then .pinf else .ninf
  | .pinf, .pinf => .nan
  | .pinf, .ninf => .nan
  | .ninf, .pinf => .nan
  | .ninf, .ninf => .nan

/-- True exactly on finite (non-infinite, non-NaN) values. -/
def F.isFinite : F → Bool
  | .fin _ => true
  | _ => false

/-! ### The chunk reducer (process_audio, src/main.rs lines 102-168) -/

/-- The fixed analysis chunk size (`let chunk_size = 2048`). -/
def chunk_size : Nat := 2048

/-- Model of Rust `slice::chunks(n)`: splits into consecutive chunks of `n`
elements, the last chunk possibly shorter.  (Rust panics on `n = 0`; the
model returns `[]`, and the code only uses `n = 2048` and `n = 2`.) -/
def chunksOf (n : Nat) : List α → List (List α)
  | [] => []
  | x :: xs =>
    if _h : n = 0 then []
    else (x :: xs).take n :: chunksOf n ((x :: xs).drop n)
termination_by l => l.length
decreasing_by
  simp only [List.length_drop, List.length_cons]
  omega

/-- Elements of a chunk at even offsets: `chunk.iter().step_by(2)` (the left channel). -/
def evenSamples : List α → List α
  | [] => []
  | [x] => [x]
  | x :: _ :: xs => x :: evenSamples xs

/-- Elements of a chunk at odd offsets: `chunk.iter().skip(1).step_by(2)` (the right channel). -/
def oddSamples (l : List α) : List α := evenSamples (l.drop 1)

/-- `left_channel.fold(f32::INFINITY, |a, &b| f32::min(a, b))`. -/
def min_fold (l : List F) : F := l.foldl F.min F.pinf

/-- `left_channel.fold(f32::NEG_INFINITY, |a, &b| f32::max(a, b))`. -/
def max_fold (l : List F) : F := l.foldl F.max F.ninf

/-- The per-channel deviation of process_audio:
`if min.abs() > max.abs() { min.abs() } else { max.abs() }`. -/
def max_deviation (l : List F) : F :=
  if F.lt (F.abs (max_fold l)) (F.abs (min_fold l)) then F.abs (min_fold l)
  else F.abs (max_fold l)

/-- The two values pushed onto `min_max_data` for one complete chunk:
the negated left-channel deviation followed by the right-channel deviation. -/
def reduceChunk (c : List F) : List F :=
  [F.neg (max_deviation (evenSamples c)), max_deviation (oddSamples c)]

/-- The `min_max_data` vector produced from the merged sample run:
`samples.chunks(chunk_size).take(full_chunks)` reduced chunk by chunk. -/
def min_max_data (s : List F) : List F :=
  (((chunksOf chunk_size s).take (s.length / chunk_size)).map reduceChunk).flatten

/-- The samples stored back into REMAINDER:
`&samples[samples.len() - remainder..]` with `remainder = samples.len() % chunk_size`. -/
def remainder_samples (s : List F) : List F :=
  s.drop (s.length - s.length % chunk_size)

/-- The history cap used in `if waveform.len() > 2000`. -/
def hist_cap : Nat := 2000

/-- The history truncation step of process_audio (src/main.rs lines 163-167):
when the length exceeds the cap, keep only the trailing `hist_cap` entries. -/
def trim (w : List F) : List F :=
  if hist_cap < w.length then w.drop (w.length - hist_cap) else w

/-- The state process_audio threads between invocations: the thread-local
REMAINDER buffer and the shared waveform history. -/
structure ProcState where
  carry : List F
  history : List F

/-- One invocation of process_audio on an (already converted) sample buffer:
prepend the carry-over, reduce the complete chunks, store the remainder,
append the reductions to the history and trim it. -/
def process_audio (st : ProcState) (buf : List F) : ProcState :=
  let samples := st.carry ++ buf
  { carry := remainder_samples samples
    history := trim (st.history ++ min_max_data samples) }

/-- Sequential processing of a list of buffers from a given carry-over state,
collecting all chunk reductions in order (the history side is handled by
`process_audio`; this def isolates the chunking pipeline for the
split-invariance property). -/
def process_stream : List F → List (List F) → List F × List F
  | c, [] => ([], c)
  | c, b :: bs =>
    let s := c ++ b
    let r := process_stream (remainder_samples s) bs
    (min_max_data s ++ r.1, r.2)

/-- The initial state: REMAINDER starts empty, the waveform history starts empty. -/
def initState : ProcState := ⟨[], []⟩

/-- Run the whole capture pipeline over a sequence of callback buffers. -/
def run_audio (bufs : List (List F)) : ProcState := bufs.foldl process_audio initState

/-! ### Basic lemmas about the chunking pipeline -/

lemma chunksOf_eq_cons (n : Nat) (l : List F) (hn : n ≠ 0) (hl : l ≠ []) :
    chunksOf n l = l.take n :: chunksOf n (l.drop n) := by
  match l with
  | [] => exact absurd rfl hl
  | x :: xs => rw [chunksOf]; simp [hn]

lemma min_max_data_small (s : List F) (h : s.length < chunk_size) :
    min_max_data s = [] := by
  unfold min_max_data
  rw [Nat.div_eq_of_lt h]
  simp

lemma min_max_data_step (s : List F) (h : chunk_size ≤ s.length) :
    min_max_data s =
      reduceChunk (s.take chunk_size) ++ min_max_data (s.drop chunk_size) := by
  have hs : s ≠ [] := by
    intro he
    rw [he] at h
    simp [chunk_size] at h
  have hq : s.length / chunk_size = (s.drop chunk_size).length / chunk_size + 1 := by
    rw [List.length_drop]
    have h2 : chunk_size = 2048 := rfl
    rw [h2] at h ⊢
    omega
  unfold min_max_data
  rw [chunksOf_eq_cons chunk_size s (by decide) hs, hq]
  simp

lemma remainder_small (s : List F) (h : s.length < chunk_size) :
    remainder_samples s = s := by
  unfold remainder_samples
  rw [Nat.mod_eq_of_lt h]
  simp

lemma remainder_step (s : List F) (h : chunk_size ≤ s.length) :
    remainder_samples s = remainder_samples (s.drop chunk_size) := by
  unfold remainder_samples
  rw [List.drop_drop, List.length_drop]
  have h2 : chunk_size = 2048 := rfl
  have hidx : s.length - s.length % chunk_size
      = s.length - chunk_size - (s.length - chunk_size) % chunk_size + chunk_size := by
    rw [h2] at h ⊢
    omega
  rw [hidx, Nat.add_comm]

lemma remainder_length (s : List F) :
    (remainder_samples s).length = s.length % chunk_size := by
  unfold remainder_samples
  rw [List.length_drop]
  have := Nat.mod_le s.length chunk_size
  omega

lemma remainder_length_lt (s : List F) :
    (remainder_samples s).length < chunk_size := by
  rw [remainder_length]
  exact Nat.mod_lt _ (by decide)

lemma min_max_data_append (s t : List F) :
    min_max_data (s ++ t) = min_max_data s ++ min_max_data (remainder_samples s ++ t) := by
  by_cases h : chunk_size ≤ s.length
  · have hle : chunk_size ≤ (s ++ t).length := by
      rw [List.length_append]; omega
    rw [min_max_data_step (s ++ t) hle, List.take_append_of_le_length h,
      List.drop_append_of_le_length h,
      min_max_data_append (s.drop chunk_size) t,
      remainder_step s h, min_max_data_step s h, List.append_assoc]
  · push_neg at h
    rw [min_max_data_small s h, remainder_small s h]
    simp
termination_by s.length
decreasing_by
  rw [List.length_drop]
  have h2 : chunk_size = 2048 := rfl
  rw [h2] at h ⊢
  omega

lemma remainder_append (s t : List F) :
    remainder_samples (s ++ t) = remainder_samples (remainder_samples s ++ t) := by
  by_cases h : chunk_size ≤ s.length
  · have hle : chunk_size ≤ (s ++ t).length := by
      rw [List.length_append]; omega
    rw [remainder_step (s ++ t) hle, List.drop_append_of_le_length h,
      remainder_append (s.drop chunk_size) t, remainder_step s h]
  · push_neg at h
    rw [remainder_small s h]
termination_by s.length
decreasing_by
  rw [List.length_drop]
  have h2 : chunk_size = 2048 := rfl
  rw [h2] at h ⊢
  omega

lemma min_max_data_length (s : List F) :
    (min_max_data s).length = 2 * (s.length / chunk_size) := by
  by_cases h : chunk_size ≤ s.length
  · rw [min_max_data_step s h]
    rw [List.length_append, min_max_data_length (s.drop chunk_size)]
    simp only [reduceChunk, List.length_cons, List.length_nil, List.length_drop]
    have h2 : chunk_size = 2048 := rfl
    rw [h2] at h ⊢
    omega
  · push_neg at h
    rw [min_max_data_small s h, Nat.div_eq_of_lt h]
    simp
termination_by s.length
decreasing_by
  rw [List.length_drop]
  have h2 : chunk_size = 2048 := rfl
  rw [h2] at h ⊢
  omega

lemma process_stream_eq (c : List F) (bufs : List (List F)) (hc : c.length < chunk_size) :
    process_stream c bufs =
      (min_max_data (c ++ bufs.flatten), remainder_samples (c ++ bufs.flatten)) := by
  induction bufs generalizing c with
  | nil =>
    simp only [process_stream, List.flatten_nil, List.append_nil]
    rw [min_max_data_small c hc, remainder_small c hc]
  | cons b bs ih =>
    simp only [process_stream, List.flatten_cons]
    rw [ih (remainder_samples (c ++ b)) (remainder_length_lt _)]
    rw [← List.append_assoc]
    rw [← min_max_data_append (c ++ b) bs.flatten, ← remainder_append (c ++ b) bs.flatten]

/-! ### Lemmas about the min/max folds and the deviation -/

lemma F.min_fin (a b : ℚ) : F.min (F.fin a) (F.fin b) = F.fin (Min.min a b) := by
  simp only [F.min, F.lt]
  rcases lt_or_le b a with h | h
  · simp [h, min_eq_right (le_of_lt h)]
  · simp [not_lt.mpr h, min_eq_left h]

lemma F.max_fin (a b : ℚ) : F.max (F.fin a) (F.fin b) = F.fin (Max.max a b) := by
  simp only [F.max, F.lt]
  rcases lt_or_le a b with h | h
  · simp [h, max_eq_right (le_of_lt h)]
  · simp [not_lt.mpr h, max_eq_left h]

lemma foldl_min_fin (xs : List ℚ) : ∀ x : ℚ,
    List.foldl F.min (F.fin x) (xs.map F.fin) = F.fin (xs.foldl Min.min x) := by
  induction xs with
  | nil => intro x; rfl
  | cons y ys ih => intro x; simp only [List.map_cons, List.foldl_cons, F.min_fin]; exact ih _

lemma foldl_max_fin (xs : List ℚ) : ∀ x : ℚ,
    List.foldl F.max (F.fin x) (xs.map F.fin) = F.fin (xs.foldl Max.max x) := by
  induction xs with
  | nil => intro x; rfl
  | cons y ys ih => intro x; simp only [List.map_cons, List.foldl_cons, F.max_fin]; exact ih _

lemma min_fold_fin (x : ℚ) (xs : List ℚ) :
    min_fold (F.fin x :: xs.map F.fin) = F.fin (xs.foldl Min.min x) := by
  unfold min_fold
  have h0 : F.min F.pinf (F.fin x) = F.fin x := rfl
  rw [List.foldl_cons, h0, foldl_min_fin]

lemma max_fold_fin (x : ℚ) (xs : List ℚ) :
    max_fold (F.fin x :: xs.map F.fin) = F.fin (xs.foldl Max.max x) := by
  unfold max_fold
  have h0 : F.max F.ninf (F.fin x) = F.fin x := rfl
  rw [List.foldl_cons, h0, foldl_max_fin]

lemma max_deviation_fin (x : ℚ) (xs : List ℚ) :
    max_deviation (F.fin x :: xs.map F.fin)
      = F.fin (Max.max |xs.foldl Min.min x| |xs.foldl Max.max x|) := by
  unfold max_deviation
  rw [min_fold_fin, max_fold_fin]
  simp only [F.abs, F.lt]
  rcases lt_or_le |xs.foldl Max.max x| |xs.foldl Min.min x| with h | h
  · simp [h, max_eq_left (le_of_lt h)]
  · simp [not_lt.mpr h, max_eq_right h]

/-- C1: the deviation process_audio computes for a channel is the absolute
value of the larger-magnitude operand between the channel's min and max
(`if min.abs() > max.abs() { min.abs() } else { max.abs() }`), not the signed
operand itself; in particular for the channel samples [0.2, -0.9, 0.5] the
deviation is 0.9, not -0.9. -/
theorem C1_deviation_is_magnitude :
    (∀ (x : ℚ) (xs : List ℚ),
      max_deviation (F.fin x :: xs.map F.fin)
        = F.fin (Max.max |xs.foldl Min.min x| |xs.foldl Max.max x|)) ∧
    max_deviation [F.fin (1/5), F.fin (-9/10), F.fin (1/2)] = F.fin (9/10) := by
  refine ⟨max_deviation_fin, ?_⟩
  have h : [F.fin (1/5 : ℚ), F.fin (-9/10), F.fin (1/2)]
      = F.fin (1/5 : ℚ) :: ([-9/10, 1/2] : List ℚ).map F.fin := by simp
  rw [h, max_deviation_fin]
  norm_num
  rw [abs_of_pos (by norm_num), abs_of_pos (by norm_num)]
  exact max_eq_left (by norm_num)

/-- C1 counterexample: the claim states the deviation for the channel samples
[0.2, -0.9, 0.5] is the signed minimum -0.9; the code yields its absolute
value 0.9 instead. -/
theorem C1_counterexample :
    max_deviation [F.fin (1/5), F.fin (-9/10), F.fin (1/2)] = F.fin (9/10) ∧
    max_deviation [F.fin (1/5), F.fin (-9/10), F.fin (1/2)] ≠ F.fin (-9/10) := by
  have h : [F.fin (1/5 : ℚ), F.fin (-9/10), F.fin (1/2)]
      = F.fin (1/5 : ℚ) :: ([-9/10, 1/2] : List ℚ).map F.fin := by simp
  have habs : |(9/10 : ℚ)| ⊔ |(1/2 : ℚ)| = 9/10 := by
    rw [abs_of_pos (by norm_num), abs_of_pos (by norm_num)]
    exact max_eq_left (by norm_num)
  constructor
  · rw [h, max_deviation_fin]
    norm_num
    exact habs
  · rw [h, max_deviation_fin]
    norm_num
    rw [habs]
    intro hc
    norm_num at hc

/-! ### History trimming (C2, C3) -/

lemma trim_length (w : List F) :
    (trim w).length = if hist_cap < w.length then hist_cap else w.length := by
  unfold trim
  split
  · rw [List.length_drop]
    omega
  · rfl

/-- C2 counterexample: the claim says that once the cap of 2000 is exceeded the
history is cut down to 1000 entries; appending up to 2002 entries, the code
cuts down to 2000 entries, not 1000. -/
theorem C2_counterexample :
    (trim (List.replicate 2002 (F.fin 0))).length = 2000 ∧ (2000 : Nat) ≠ 1000 := by
  constructor
  · rw [trim_length, List.length_replicate]
    decide
  · decide

/-- C2 (amended): when an append makes the history length exceed the cap of
2000, the trim step drops exactly (length - 2000) oldest entries, cutting the
history down to exactly the cap of 2000 entries (not to half the cap). -/
theorem C2_trim_to_cap (w : List F) (hlen : hist_cap < w.length) :
    trim w = w.drop (w.length - hist_cap) ∧ (trim w).length = hist_cap := by
  constructor
  · unfold trim
    rw [if_pos hlen]
  · rw [trim_length, if_pos hlen]

/-- C2 witness: the trim theorem applied to a concrete 2001-entry history. -/
theorem C2_witness :
    hist_cap < (List.replicate 2001 (F.fin 0)).length ∧
    (trim (List.replicate 2001 (F.fin 0))
        = (List.replicate 2001 (F.fin 0)).drop
            ((List.replicate 2001 (F.fin 0)).length - hist_cap) ∧
      (trim (List.replicate 2001 (F.fin 0))).length = hist_cap) :=
  ⟨by rw [List.length_replicate]; decide,
   C2_trim_to_cap _ (by rw [List.length_replicate]; decide)⟩

/-- C3: after any append+trim cycle of process_audio, starting from any state,
the history length never exceeds the cap of 2000, and the resulting history is
a suffix of (old contents ++ appended values): only the oldest entries are ever
removed and order is preserved. -/
theorem C3_history_cap_and_suffix (st : ProcState) (buf : List F) :
    (process_audio st buf).history.length ≤ hist_cap ∧
    (process_audio st buf).history.IsSuffix
      (st.history ++ min_max_data (st.carry ++ buf)) := by
  constructor
  · show (trim _).length ≤ hist_cap
    rw [trim_length]
    split
    · exact le_refl _
    · omega
  · show List.IsSuffix (trim _) _
    unfold trim
    split
    · exact List.drop_suffix _ _
    · exact List.suffix_refl _

/-! ### Split invariance and the carry-over invariant (C4, C5) -/

/-- C4: processing a stream buffer by buffer (prepending the carry-over each
time and clearing it) produces exactly the same sequence of chunk reductions,
and the same final carry-over, as processing the concatenated stream in one
single call: the chunk boundaries are invariant under buffer fragmentation. -/
theorem C4_split_invariance (c : List F) (b : List F) (bs : List (List F)) :
    process_stream c (b :: bs)
      = (min_max_data (c ++ (b :: bs).flatten),
         remainder_samples (c ++ (b :: bs).flatten)) := by
  simp only [process_stream, List.flatten_cons]
  rw [process_stream_eq (remainder_samples (c ++ b)) bs (remainder_length_lt _)]
  rw [← List.append_assoc]
  rw [← min_max_data_append (c ++ b) bs.flatten, ← remainder_append (c ++ b) bs.flatten]

/-- C5: after one process_audio call from any state, the stored carry-over
holds exactly (total samples) mod 2048 samples, hence always fewer than
2048 = chunk_size samples. -/
theorem C5_carry_invariant (st : ProcState) (buf : List F) :
    (process_audio st buf).carry.length = (st.carry ++ buf).length % chunk_size ∧
    (process_audio st buf).carry.length < chunk_size := by
  constructor
  · exact remainder_length _
  · exact remainder_length_lt _

/-! ### Number of envelope pairs per call (C6) -/

/-- C6 counterexample: for the aligned 4096-sample buffer (carry empty) the
code produces 2 envelope pairs, while the claim predicts
floor(4096 / (2 * 2048)) = 1. -/
theorem C6_counterexample :
    (min_max_data (List.replicate 4096 (F.fin 0))).length / 2
      ≠ (List.replicate 4096 (F.fin 0)).length / (2 * chunk_size) := by
  rw [min_max_data_length]
  simp only [List.length_replicate]
  decide

/-- C6 (amended): for a chunk-size-aligned input of 2048*k samples processed
with an empty carry-over, one call emits exactly k envelope pairs (2*k pushed
values), i.e. floor(sample_count / chunk_size) pairs, not
floor(sample_count / (2*chunk_size)). -/
theorem C6_pairs_per_call (buf : List F) (k : Nat) (hlen : buf.length = chunk_size * k) :
    (min_max_data buf).length = 2 * k ∧ (min_max_data buf).length / 2 = k := by
  rw [min_max_data_length, hlen]
  have h2 : chunk_size = 2048 := rfl
  rw [h2]
  omega

/-- C6 witness: the pair-count theorem applied to the concrete 4096-sample
aligned buffer, which yields 2 pairs. -/
theorem C6_witness :
    (List.replicate 4096 (F.fin 0)).length = chunk_size * 2 ∧
    ((min_max_data (List.replicate 4096 (F.fin 0))).length = 2 * 2 ∧
      (min_max_data (List.replicate 4096 (F.fin 0))).length / 2 = 2) :=
  ⟨by rw [List.length_replicate]; decide,
   C6_pairs_per_call _ 2 (by rw [List.length_replicate]; decide)⟩

/-! ### Finiteness of emitted values (C7) -/

lemma evenSamples_subset : ∀ (l : List α), ∀ a ∈ evenSamples l, a ∈ l
  | [], a, ha => by simp [evenSamples] at ha
  | [x], a, ha => by simpa [evenSamples] using ha
  | x :: y :: xs, a, ha => by
    rw [evenSamples] at ha
    rcases List.mem_cons.mp ha with h | h
    · simp [h]
    · have := evenSamples_subset xs a h
      simp [this]

lemma oddSamples_subset (l : List α) : ∀ a ∈ oddSamples l, a ∈ l := by
  intro a ha
  exact List.mem_of_mem_drop (evenSamples_subset _ a ha)

lemma evenSamples_ne_nil : ∀ (l : List α), l ≠ [] → evenSamples l ≠ []
  | [], h, _ => absurd rfl h
  | [x], _, hc => by simp [evenSamples] at hc
  | x :: y :: xs, _, hc => by simp [evenSamples] at hc

lemma foldl_min_finite (xs : List F) : ∀ a : F, F.isFinite a = true →
    (∀ b ∈ xs, F.isFinite b = true) → F.isFinite (xs.foldl F.min a) = true := by
  induction xs with
  | nil => intro a ha _; exact ha
  | cons x xs ih =>
    intro a ha hall
    rw [List.foldl_cons]
    have hx : F.isFinite x = true := hall x (by simp)
    have hstep : F.isFinite (F.min a x) = true := by
      match a, x with
      | F.fin p, F.fin q => simp [F.min]; split <;> rfl
      | F.fin p, F.pinf | F.fin p, F.ninf | F.fin p, F.nan => simp [F.isFinite] at hx ⊢
      | F.pinf, _ | F.ninf, _ | F.nan, _ => simp [F.isFinite] at ha
    exact ih _ hstep (fun b hb => hall b (by simp [hb]))

lemma foldl_max_finite (xs : List F) : ∀ a : F, F.isFinite a = true →
    (∀ b ∈ xs, F.isFinite b = true) → F.isFinite (xs.foldl F.max a) = true := by
  induction xs with
  | nil => intro a ha _; exact ha
  | cons x xs ih =>
    intro a ha hall
    rw [List.foldl_cons]
    have hx : F.isFinite x = true := hall x (by simp)
    have hstep : F.isFinite (F.max a x) = true := by
      match a, x with
      | F.fin p, F.fin q => simp [F.max]; split <;> rfl
      | F.fin p, F.pinf | F.fin p, F.ninf | F.fin p, F.nan => simp [F.isFinite] at hx ⊢
      | F.pinf, _ | F.ninf, _ | F.nan, _ => simp [F.isFinite] at ha
    exact ih _ hstep (fun b hb => hall b (by simp [hb]))

lemma min_fold_finite (l : List F) (hne : l ≠ []) (hall : ∀ b ∈ l, F.isFinite b = true) :
    F.isFinite (min_fold l) = true := by
  match l with
  | [] => exact absurd rfl hne
  | x :: xs =>
    unfold min_fold
    rw [List.foldl_cons]
    have hx : F.isFinite x = true := hall x (by simp)
    have h0 : F.min F.pinf x = x := by
      match x with
      | F.fin q => rfl
      | F.pinf | F.ninf | F.nan => simp [F.isFinite] at hx
    rw [h0]
    exact foldl_min_finite xs x hx (fun b hb => hall b (by simp [hb]))

lemma max_fold_finite (l : List F) (hne : l ≠ []) (hall : ∀ b ∈ l, F.isFinite b = true) :
    F.isFinite (max_fold l) = true := by
  match l with
  | [] => exact absurd rfl hne
  | x :: xs =>
    unfold max_fold
    rw [List.foldl_cons]
    have hx : F.isFinite x = true := hall x (by simp)
    have h0 : F.max F.ninf x = x := by
      match x with
      | F.fin q => rfl
      | F.pinf | F.ninf | F.nan => simp [F.isFinite] at hx
    rw [h0]
    exact foldl_max_finite xs x hx (fun b hb => hall b (by simp [hb]))

lemma max_deviation_finite (l : List F) (hne : l ≠ [])
    (hall : ∀ b ∈ l, F.isFinite b = true) :
    F.isFinite (max_deviation l) = true := by
  have hmin := min_fold_finite l hne hall
  have hmax := max_fold_finite l hne hall
  unfold max_deviation
  split
  · match h : min_fold l with
    | F.fin q => simp [F.abs, F.isFinite]
    | F.pinf | F.ninf | F.nan => rw [h] at hmin; simp [F.isFinite] at hmin
  · match h : max_fold l with
    | F.fin q => simp [F.abs, F.isFinite]
    | F.pinf | F.ninf | F.nan => rw [h] at hmax; simp [F.isFinite] at hmax

lemma chunksOf_mem_subset (n : Nat) : ∀ (l : List F), ∀ c ∈ chunksOf n l, ∀ a ∈ c, a ∈ l
  | [], c, hc => by simp [chunksOf] at hc
  | x :: xs, c, hc => by
    intro a ha
    rw [chunksOf] at hc
    by_cases hn : n = 0
    · simp [hn] at hc
    · rw [dif_neg hn] at hc
      rcases List.mem_cons.mp hc with h | h
      · exact List.mem_of_mem_take (h ▸ ha)
      · exact List.mem_of_mem_drop
          (chunksOf_mem_subset n ((x :: xs).drop n) c h a ha)
termination_by l => l.length
decreasing_by
  simp only [List.length_drop, List.length_cons]
  omega

lemma mem_chunksOf_take_length : ∀ (l : List F), ∀ c ∈ (chunksOf chunk_size l).take
      (l.length / chunk_size), c.length = chunk_size := by
  intro l
  by_cases h : chunk_size ≤ l.length
  · have hne : l ≠ [] := by
      intro he; rw [he] at h; simp [chunk_size] at h
    have hq : l.length / chunk_size = (l.drop chunk_size).length / chunk_size + 1 := by
      rw [List.length_drop]
      have h2 : chunk_size = 2048 := rfl
      rw [h2] at h ⊢
      omega
    rw [chunksOf_eq_cons chunk_size l (by decide) hne, hq, List.take_succ_cons]
    intro c hc
    rcases List.mem_cons.mp hc with he | he
    · rw [he, List.length_take]
      omega
    · exact mem_chunksOf_take_length (l.drop chunk_size) c he
  · push_neg at h
    rw [Nat.div_eq_of_lt h]
    intro c hc
    simp at hc
termination_by l => l.length
decreasing_by
  simp only [List.length_drop]
  have h2 : chunk_size = 2048 := rfl
  rw [h2] at h ⊢
  omega

lemma reduceChunk_finite (c : List F) (hlen : c.length = chunk_size)
    (hall : ∀ a ∈ c, F.isFinite a = true) :
    ∀ v ∈ reduceChunk c, F.isFinite v = true := by
  have hcne : c ≠ [] := by
    intro he; rw [he] at hlen; simp [chunk_size] at hlen
  have hone : (c.drop 1) ≠ [] := by
    intro he
    have := congrArg List.length he
    rw [List.length_drop, hlen] at this
    simp [chunk_size] at this
  have hleft : F.isFinite (max_deviation (evenSamples c)) = true :=
    max_deviation_finite _ (evenSamples_ne_nil c hcne)
      (fun b hb => hall b (evenSamples_subset c b hb))
  have hright : F.isFinite (max_deviation (oddSamples c)) = true :=
    max_deviation_finite _ (evenSamples_ne_nil _ hone)
      (fun b hb => hall b (oddSamples_subset c b hb))
  intro v hv
  rw [reduceChunk] at hv
  rcases List.mem_cons.mp hv with he | hv
  · rw [he]
    match h : max_deviation (evenSamples c) with
    | F.fin q => rfl
    | F.pinf | F.ninf | F.nan => rw [h] at hleft; simp [F.isFinite] at hleft
  · rcases List.mem_cons.mp hv with he | hv
    · rw [he]; exact hright
    · simp at hv

/-- C7 counterexample: the claim says a channel with zero samples yields a
deviation of 0; on the code's reduction an empty channel yields the +infinity
sentinel (|+inf| > |-inf| is false, so the branch returns max.abs() = +inf),
not 0. -/
theorem C7_counterexample :
    max_deviation ([] : List F) = F.pinf ∧ F.pinf ≠ F.fin 0 := by
  constructor
  · rfl
  · decide

/-- C7 (amended): an empty channel would yield deviation +infinity, not 0; but
channels of complete 2048-sample chunks are never empty, so the infinity
fold sentinels never propagate into the envelope pairs:
every value process_audio pushes from finite samples is finite. -/
theorem C7_no_infinity_emitted (s : List F) (hfin : s.all F.isFinite = true) :
    (min_max_data s).all F.isFinite = true := by
  rw [List.all_eq_true] at hfin ⊢
  intro v hv
  unfold min_max_data at hv
  rw [List.mem_flatten] at hv
  obtain ⟨r, hr, hvr⟩ := hv
  rw [List.mem_map] at hr
  obtain ⟨c, hc, hrc⟩ := hr
  have hclen : c.length = chunk_size := mem_chunksOf_take_length s c hc
  have hcin : ∀ a ∈ c, F.isFinite a = true := by
    intro a ha
    exact hfin a (chunksOf_mem_subset chunk_size s c
      (List.mem_of_mem_take hc) a ha)
  exact reduceChunk_finite c hclen hcin v (hrc ▸ hvr)

/-- C7 witness: the finiteness theorem applied to a concrete finite sample list. -/
theorem C7_witness :
    ([F.fin 0, F.fin 1] : List F).all F.isFinite = true ∧
    (min_max_data [F.fin 0, F.fin 1]).all F.isFinite = true :=
  ⟨by decide, C7_no_infinity_emitted _ (by decide)⟩

/-! ### Session startup (start_audio_stream, src/main.rs lines 48-99)

The cpal host is modelled by the outcomes of the calls start_audio_stream
makes on it, in the order the code makes them: `default_input_device()`
(None when no device exists), `device.name()` (a Result, propagated with
`?`), `default_input_config()` (a Result, unwrapped with `.expect`), the
sample format of that config, and the results of `build_input_stream` and
`stream.play()` (Results, propagated with `?`).  `.expect(msg)` on a
missing value is a panic with message msg; `?` and `return Err(..)` are
typed error returns. -/

/-- The sample format reported by the device's default config. -/
inductive SampleFormat where
  | i16
  | f32
  | other
deriving DecidableEq

/-- The device's default input stream configuration (only the sample format
matters to the modelled control flow). -/
structure StreamConfigInfo where
  sampleFormat : SampleFormat
deriving DecidableEq

/-- A cpal input device, by the outcomes of the calls made on it. -/
structure Device where
  name : Option String
  defaultConfig : Option StreamConfigInfo
  buildError : Option String
  playError : Option String
deriving DecidableEq

/-- A cpal host: `default_input_device()` returns None when no input device
is available. -/
structure Host where
  defaultInputDevice : Option Device
deriving DecidableEq

/-- How start_audio_stream terminates: normally, by panicking (`.expect`),
or by returning a typed error (`?` or `return Err(..)`). -/
inductive StartOutcome where
  | ok
  | panicked (msg : String)
  | errored (msg : String)
deriving DecidableEq

/-- True exactly when the outcome is a typed error returned to the caller. -/
def StartOutcome.isError : StartOutcome → Bool
  | .errored _ => true
  | _ => false

/-- Model of start_audio_stream's fallible control flow:
`host.default_input_device().expect("No input device available")` panics when
no device exists; `device.name()?` propagates; `default_input_config()`
is unwrapped with `.expect(..)`; an unsupported sample format returns
`Err("Unsupported sample format")`; stream build and play errors are
propagated with `?`. -/
def start_audio_stream (host : Host) : StartOutcome :=
  match host.defaultInputDevice with
  | none => .panicked "No input device available"
  | some dev =>
    match dev.name with
    | none => .errored "device name error"
    | some _ =>
      match dev.defaultConfig with
      | none => .panicked "Error retrieving default configuration"
      | some cfg =>
        match cfg.sampleFormat with
        | .other => .errored "Unsupported sample format"
        | _ =>
          match dev.buildError with
          | some e => .errored e
          | none =>
            match dev.playError with
            | some e => .errored e
            | none => .ok

/-- A host with no input device available. -/
def noDeviceHost : Host := ⟨none⟩

/-- C8 counterexample: with no default input device, start_audio_stream
terminates by panic (`.expect("No input device available")`), not by
returning a typed error result to the caller. -/
theorem C8_counterexample :
    start_audio_stream noDeviceHost = StartOutcome.panicked "No input device available" ∧
    StartOutcome.isError (start_audio_stream noDeviceHost) = false := by
  constructor
  · rfl
  · rfl

/-- C8 (amended): when no default input device exists, session startup fails
by panicking with message "No input device available" (via `.expect`), for
every such host state; no typed NoDeviceError value exists in the code. -/
theorem C8_no_device_panics (host : Host) (hdev : host.defaultInputDevice = none) :
    start_audio_stream host = StartOutcome.panicked "No input device available" := by
  unfold start_audio_stream
  rw [hdev]

/-- C8 witness: the panic theorem applied to the concrete no-device host. -/
theorem C8_witness :
    noDeviceHost.defaultInputDevice = none ∧
    start_audio_stream noDeviceHost = StartOutcome.panicked "No input device available" :=
  ⟨rfl, C8_no_device_panics noDeviceHost rfl⟩

/-! ### Rendering (render_plot, src/main.rs lines 170-230)

The image is modelled as a total function from coordinates to RGBA colors;
only coordinates inside the width x height canvas are ever read or stated
about.  `put_pixel` out of canvas bounds and slice indexing out of bounds
both panic in Rust; the model returns an error value for either, so an
`Except.ok` result means the Rust code completes without panicking. -/

/-- An RGBA color. -/
abbrev Color := Nat × Nat × Nat × Nat

/-- The pixel buffer, as a function from (x, y) to color. -/
abbrev Img := Nat → Nat → Color

/-- The two ways render_plot can panic: the unchecked `chunk[1]` (or
`chunk[0]`) slice index, and an out-of-bounds `put_pixel`. -/
inductive RPanic where
  | chunkIndex
  | pixelOob
deriving DecidableEq

/-- The background fill `Rgba([0, 0, 0, 255])`. -/
def bgColor : Color := (0, 0, 0, 255)

/-- The center-baseline color `Rgba([100, 100, 255, 255])`. -/
def baselineColor : Color := (100, 100, 255, 255)

/-- The min-line color `Rgba([0, 255, 0, 255])`. -/
def minLineColor : Color := (0, 255, 0, 255)

/-- The max-line color `Rgba([255, 100, 100, 255])`. -/
def maxLineColor : Color := (255, 100, 100, 255)

/-- 2^32, the modulus of u32 arithmetic. -/
def u32Mod : Nat := 4294967296

/-- Model of an `as u32` cast from f32: saturating, truncating toward zero;
NaN casts to 0. -/
def f32_to_u32 : F → Nat
  | .nan => 0
  | .ninf => 0
  | .pinf => u32Mod - 1
  | .fin q => if q < 0 then 0 else Nat.min (Int.toNat ⌊q⌋) (u32Mod - 1)

/-- Wrapping u32 decrement (`y0 - 1` in a release build). -/
def u32sub1 (y : Nat) : Nat := (y + (u32Mod - 1)) % u32Mod

/-- Wrapping u32 increment (`y0 + 1`). -/
def u32add1 (y : Nat) : Nat := (y + 1) % u32Mod

/-- `img.put_pixel(x, y, c)`: panics when (x, y) is outside the canvas. -/
def putPixel (w h : Nat) (img : Img) (x y : Nat) (c : Color) : Except RPanic Img :=
  if x < w ∧ y < h then
    .ok (fun a b => if a = x ∧ b = y then c else img a b)
  else .error .pixelOob

/-- The inclusive range `start..=end` of the vertical line loops. -/
def rangeIncl (s e : Nat) : List Nat := (List.range (e + 1 - s)).map (s + ·)

/-- One vertical line loop:
`for y in start..=end { if y >= 0 && y < height { img.put_pixel(x, y, c) } }`. -/
def drawVLine (w h x : Nat) (c : Color) (s e : Nat) (img : Img) : Except RPanic Img :=
  List.foldlM (fun im y => if y < h then putPixel w h im x y c else Except.ok im)
    img (rangeIncl s e)

/-- `waveform_data.iter().cloned().fold(0.0, |a, b| a.max(b.abs()))`. -/
def max_amplitude (l : List F) : F := l.foldl (fun a b => F.max a (F.abs b)) (F.fin 0)

/-- `let scale = if max_amplitude > 0.0 { 1.0 / max_amplitude } else { 1.0 };`. -/
def scale_of (l : List F) : F :=
  if F.lt (F.fin 0) (max_amplitude l) then F.div (F.fin 1) (max_amplitude l)
  else F.fin 1

/-- The loop body of render_plot for one enumerated 2-element chunk at column
x: read chunk[0] and chunk[1] (panicking when absent), compute the scaled
y_min and y_max rows, draw the baseline pixel, then the min line and the max
line, each guarded by the float bounds check of the code. -/
def drawColumn (w h : Nat) (sc cy : F) (img : Img) (x : Nat) (chunk : List F) :
    Except RPanic Img :=
  match chunk.get? 0, chunk.get? 1 with
  | some c0, some c1 =>
    let yMin := F.add cy (F.mul (F.mul c0 cy) sc)
    let yMax := F.add cy (F.mul (F.mul c1 cy) sc)
    match putPixel w h img x (f32_to_u32 cy) baselineColor with
    | .error e => .error e
    | .ok img1 =>
      let minRes :=
        if F.le (F.fin 0) yMin && F.lt yMin (F.fin (h : ℚ)) then
          let y0 := f32_to_u32 cy
          let y1 := f32_to_u32 yMin
          if y0 ≠ y1 then
            if y0 < y1 then drawVLine w h x minLineColor (u32sub1 y0) y1 img1
            else drawVLine w h x minLineColor y1 (u32sub1 y0) img1
          else .ok img1
        else .ok img1
      match minRes with
      | .error e => .error e
      | .ok img2 =>
        if F.le (F.fin 0) yMax && F.lt yMax (F.fin (h : ℚ)) then
          let y0 := f32_to_u32 cy
          let y1 := f32_to_u32 yMax
          if y0 ≠ y1 then
            if y0 < y1 then drawVLine w h x maxLineColor (u32add1 y0) y1 img2
            else drawVLine w h x maxLineColor y1 (u32add1 y0) img2
          else .ok img2
        else .ok img2
  | _, _ => .error .chunkIndex

/-- Model of render_plot (the live version in main.rs): a black canvas, the
amplitude normalization, then one column per 2-element chunk of the waveform
history, stopping once the column index reaches the width
(`if i >= width { break }` before any pixel access). -/
def render_plot (hist : List F) (w h : Nat) : Except RPanic Img :=
  let cy := F.div (F.fin (h : ℚ)) (F.fin 2)
  let sc := scale_of hist
  List.foldlM (fun im ic => drawColumn w h sc cy im ic.1 ic.2)
    (fun _ _ => bgColor) (((chunksOf 2 hist).take w).enum)

/-! ### Rendering lemmas (C9, C10) -/

lemma centerY_eq (h : Nat) :
    F.div (F.fin (h : ℚ)) (F.fin 2) = F.fin ((h : ℚ) / 2) := by
  show (if (2 : ℚ) = 0
      then (if (h : ℚ) = 0 then F.nan else if 0 < (h : ℚ) then F.pinf else F.ninf)
      else F.fin ((h : ℚ) / 2)) = F.fin ((h : ℚ) / 2)
  rw [if_neg (by norm_num)]

lemma floor_cast_half (h : Nat) : ⌊((h : ℚ) / 2)⌋ = ((h / 2 : ℕ) : ℤ) := by
  rw [Int.floor_eq_iff]
  constructor
  · rw [le_div_iff₀ (by norm_num)]
    have hle : (h / 2) * 2 ≤ h := Nat.div_mul_le_self h 2
    push_cast
    exact_mod_cast hle
  · rw [div_lt_iff₀ (by norm_num)]
    have hlt : h < (h / 2 + 1) * 2 := by omega
    push_cast
    exact_mod_cast hlt

lemma f32_to_u32_half (h : Nat) (hb : h < 2147483648) :
    f32_to_u32 (F.fin ((h : ℚ) / 2)) = h / 2 := by
  show (if ((h : ℚ) / 2) < 0 then 0
      else Nat.min (Int.toNat ⌊((h : ℚ) / 2)⌋) (u32Mod - 1)) = h / 2
  rw [if_neg (not_lt.mpr (by positivity)), floor_cast_half, Int.toNat_natCast]
  have hle : h / 2 ≤ u32Mod - 1 := by
    have h2 : u32Mod = 4294967296 := rfl
    omega
  exact Nat.min_eq_left hle

lemma max_amplitude_zeros (m : Nat) :
    max_amplitude (List.replicate m (F.fin 0)) = F.fin 0 := by
  induction m with
  | zero => rfl
  | succ n ih =>
    rw [List.replicate_succ]
    unfold max_amplitude at ih ⊢
    rw [List.foldl_cons]
    have hstep : F.max (F.fin 0) (F.abs (F.fin 0)) = F.fin 0 := rfl
    rw [hstep]
    exact ih

lemma scale_of_zeros (m : Nat) :
    scale_of (List.replicate m (F.fin 0)) = F.fin 1 := by
  unfold scale_of
  rw [max_amplitude_zeros]
  rfl

lemma chunksOf_two_replicate (v : F) : ∀ m : Nat,
    chunksOf 2 (List.replicate (2 * m) v) = List.replicate m [v, v] := by
  intro m
  induction m with
  | zero =>
    rw [Nat.mul_zero, List.replicate_zero, List.replicate_zero]
    rw [chunksOf]
  | succ n ih =>
    have h2 : 2 * (n + 1) = (2 * n) + 1 + 1 := by ring
    rw [h2, List.replicate_succ, List.replicate_succ, chunksOf]
    rw [dif_neg (by norm_num)]
    simp only [List.take, List.drop]
    rw [ih, List.replicate_succ]

lemma enumFrom_replicate (c : List F) : ∀ (m k : Nat),
    List.enumFrom k (List.replicate m c) = (List.range' k m).map (fun i => (i, c)) := by
  intro m
  induction m with
  | zero => intro k; rfl
  | succ n ih =>
    intro k
    rw [List.replicate_succ, List.range'_succ]
    simp only [List.enumFrom, List.map_cons]
    rw [ih (k + 1)]

lemma drawColumn_zero (w h x : Nat) (img : Img) (hx : x < w) (hh : 0 < h)
    (hb : h < 2147483648) :
    drawColumn w h (F.fin 1) (F.fin ((h : ℚ) / 2)) img x [F.fin 0, F.fin 0]
      = Except.ok (fun a b => if a = x ∧ b = h / 2 then baselineColor else img a b) := by
  have hzero : F.mul (F.mul (F.fin 0) (F.fin ((h : ℚ) / 2))) (F.fin 1) = F.fin 0 := by
    simp [F.mul]
  have hy : F.add (F.fin ((h : ℚ) / 2)) (F.fin 0) = F.fin ((h : ℚ) / 2) := by
    simp [F.add]
  have hle : F.le (F.fin 0) (F.fin ((h : ℚ) / 2)) = true := by
    simp only [F.le, decide_eq_true_eq]
    positivity
  have hlt : F.lt (F.fin ((h : ℚ) / 2)) (F.fin (h : ℚ)) = true := by
    simp only [F.lt, decide_eq_true_eq]
    apply div_lt_self
    · exact_mod_cast hh
    · norm_num
  have hrow : h / 2 < h := Nat.div_lt_self hh (by norm_num)
  have hput : putPixel w h img x (f32_to_u32 (F.fin ((h : ℚ) / 2))) baselineColor
      = Except.ok (fun a b => if a = x ∧ b = h / 2 then baselineColor else img a b) := by
    rw [f32_to_u32_half h hb]
    unfold putPixel
    rw [if_pos ⟨hx, hrow⟩]
  unfold drawColumn
  simp only [List.get?, hzero, hy, hput, hle, hlt, Bool.and_self, if_true,
    ne_eq, not_true_eq_false, if_false, ite_self]

lemma renderFold_zeros (w h : Nat) (hh : 0 < h) (hb : h < 2147483648) :
    ∀ (m k : Nat) (img : Img), k + m ≤ w →
    List.foldlM
        (fun im ic => drawColumn w h (F.fin 1) (F.fin ((h : ℚ) / 2)) im ic.1 ic.2)
        img ((List.range' k m).map (fun i => (i, ([F.fin 0, F.fin 0] : List F))))
      = Except.ok (fun a b =>
          if (k ≤ a ∧ a < k + m) ∧ b = h / 2 then baselineColor else img a b) := by
  intro m
  induction m with
  | zero =>
    intro k img _
    simp only [List.range', List.map_nil, List.foldlM_nil]
    congr 1
    funext a b
    rw [if_neg (by omega)]
  | succ n ih =>
    intro k img hk
    rw [List.range'_succ]
    simp only [List.map_cons, List.foldlM_cons]
    rw [drawColumn_zero w h k img (by omega) hh hb]
    show List.foldlM _ _ _ = _
    rw [ih (k + 1) _ (by omega)]
    congr 1
    funext a b
    by_cases hbrow : b = h / 2
    · subst hbrow
      by_cases h1 : k + 1 ≤ a ∧ a < k + 1 + n
      · rw [if_pos ⟨h1, rfl⟩, if_pos ⟨⟨by omega, by omega⟩, rfl⟩]
      · rw [if_neg (by tauto)]
        by_cases h2 : a = k
        · rw [if_pos ⟨h2, rfl⟩, if_pos ⟨⟨by omega, by omega⟩, rfl⟩]
        · rw [if_neg (by tauto), if_neg (by push_neg; intro hc _; omega)]
    · rw [if_neg (by tauto), if_neg (by tauto), if_neg (by tauto)]

/-- C9: for a history consisting only of zero envelope pairs and any positive
canvas (width and height positive i32 values), the normalization scale is 1
(no division by the zero maximum amplitude), rendering completes without
panicking, and the produced pixel buffer holds exactly the center-baseline
pixels over the black background: no min-line or max-line pixel is drawn. -/
theorem C9_zero_history_renders_baseline (n w h : Nat)
    (_hw : 0 < w) (hh : 0 < h) (hb : h < 2147483648) :
    scale_of (List.replicate (2 * n) (F.fin 0)) = F.fin 1 ∧
    ∃ img, render_plot (List.replicate (2 * n) (F.fin 0)) w h = Except.ok img ∧
      ∀ x y, x < w → y < h →
        img x y = if x < Nat.min n w ∧ y = h / 2 then baselineColor else bgColor := by
  constructor
  · exact scale_of_zeros (2 * n)
  · unfold render_plot
    rw [centerY_eq, scale_of_zeros, chunksOf_two_replicate, List.take_replicate]
    show ∃ img, List.foldlM _ _ (List.enumFrom 0 _) = Except.ok img ∧ _
    rw [enumFrom_replicate]
    have hmm : Nat.min w n = Nat.min n w := Nat.min_comm w n
    have hle1 : Nat.min w n ≤ w := Nat.min_le_left w n
    have hle2 : Nat.min w n ≤ n := Nat.min_le_right w n
    rw [renderFold_zeros w h hh hb (Nat.min w n) 0 _ (by omega)]
    refine ⟨_, rfl, ?_⟩
    intro x y hx hy
    by_cases hcond : x < Nat.min n w ∧ y = h / 2
    · rw [if_pos hcond]
      have hx2 : x < Nat.min n w := hcond.1
      rw [if_pos ⟨⟨by omega, by omega⟩, hcond.2⟩]
    · rw [if_neg hcond, if_neg (by
        push_neg at hcond ⊢
        intro h1 h2
        exact hcond (by omega) h2)]

/-- C9 witness: the zero-history rendering theorem applied to one zero pair on
a concrete 3 x 2 canvas. -/
theorem C9_witness :
    (0 < 3 ∧ 0 < 2 ∧ 2 < 2147483648) ∧
    (scale_of (List.replicate (2 * 1) (F.fin 0)) = F.fin 1 ∧
      ∃ img, render_plot (List.replicate (2 * 1) (F.fin 0)) 3 2 = Except.ok img ∧
        ∀ x y, x < 3 → y < 2 →
          img x y = if x < Nat.min 1 3 ∧ y = 2 / 2 then baselineColor else bgColor) :=
  ⟨⟨by decide, by decide, by decide⟩,
   C9_zero_history_renders_baseline 1 3 2 (by decide) (by decide) (by decide)⟩

/-! ### Panic-freedom of rendering on pipeline histories (C10) -/

lemma ok_bind (a : Img) (f : Img → Except RPanic Img) :
    ((Except.ok a : Except RPanic Img) >>= f) = f a := rfl

lemma row_lt (h : Nat) (hh : 0 < h) : f32_to_u32 (F.fin ((h : ℚ) / 2)) < h := by
  show (if ((h : ℚ) / 2) < 0 then 0
      else Nat.min (Int.toNat ⌊((h : ℚ) / 2)⌋) (u32Mod - 1)) < h
  rw [if_neg (not_lt.mpr (by positivity)), floor_cast_half, Int.toNat_natCast]
  have h1 : Nat.min (h / 2) (u32Mod - 1) ≤ h / 2 := Nat.min_le_left _ _
  have h2 : h / 2 < h := Nat.div_lt_self hh (by norm_num)
  omega

lemma drawVLine_ok (w h x : Nat) (c : Color) (hx : x < w) (ys : List Nat) :
    ∀ img : Img, ∃ img',
      List.foldlM (fun im y => if y < h then putPixel w h im x y c else Except.ok im)
        img ys = Except.ok img' := by
  induction ys with
  | nil => intro img; exact ⟨img, rfl⟩
  | cons y ys ih =>
    intro img
    rw [List.foldlM_cons]
    by_cases hy : y < h
    · rw [if_pos hy]
      have hp : putPixel w h img x y c
          = Except.ok (fun a b => if a = x ∧ b = y then c else img a b) := by
        unfold putPixel
        rw [if_pos ⟨hx, hy⟩]
      rw [hp, ok_bind]
      exact ih _
    · rw [if_neg hy, ok_bind]
      exact ih img

lemma drawVLine_def_ok (w h x : Nat) (c : Color) (hx : x < w) (s e : Nat) (img : Img) :
    ∃ img', drawVLine w h x c s e img = Except.ok img' := by
  unfold drawVLine
  exact drawVLine_ok w h x c hx (rangeIncl s e) img

lemma drawColumn_ok (w h x : Nat) (sc : F) (img : Img) (chunk : List F)
    (hx : x < w) (hh : 0 < h) (hlen : chunk.length = 2) :
    ∃ img', drawColumn w h sc (F.fin ((h : ℚ) / 2)) img x chunk = Except.ok img' := by
  obtain ⟨a, b, rfl⟩ : ∃ a b, chunk = [a, b] := by
    match chunk, hlen with
    | [a, b], _ => exact ⟨a, b, rfl⟩
  have hput : putPixel w h img x (f32_to_u32 (F.fin ((h : ℚ) / 2))) baselineColor
      = Except.ok (fun p q =>
          if p = x ∧ q = f32_to_u32 (F.fin ((h : ℚ) / 2)) then baselineColor
          else img p q) := by
    unfold putPixel
    rw [if_pos ⟨hx, row_lt h hh⟩]
  unfold drawColumn
  simp only [List.get?]
  split
  · rename_i e he
    rw [hput] at he
    simp at he
  · rename_i img1 h1
    split
    · rename_i e he
      exfalso
      split at he
      · split at he
        · split at he
          · obtain ⟨im2, him2⟩ := drawVLine_def_ok w h x minLineColor hx _ _ img1
            rw [him2] at he
            simp at he
          · obtain ⟨im2, him2⟩ := drawVLine_def_ok w h x minLineColor hx _ _ img1
            rw [him2] at he
            simp at he
        · simp at he
      · simp at he
    · rename_i img2 h2
      split
      · split
        · split
          · exact drawVLine_def_ok w h x maxLineColor hx _ _ img2
          · exact drawVLine_def_ok w h x maxLineColor hx _ _ img2
        · exact ⟨img2, rfl⟩
      · exact ⟨img2, rfl⟩

lemma chunksOf_two_even : ∀ (l : List F), l.length % 2 = 0 →
    ∀ c ∈ chunksOf 2 l, c.length = 2
  | [], _, c, hc => by rw [chunksOf] at hc; simp at hc
  | x :: xs, hl, c, hc => by
    rw [chunksOf_eq_cons 2 (x :: xs) (by norm_num) (by simp)] at hc
    rcases List.mem_cons.mp hc with he | he
    · subst he
      rw [List.length_take]
      simp only [List.length_cons] at hl ⊢
      omega
    · have hl2 : ((x :: xs).drop 2).length % 2 = 0 := by
        rw [List.length_drop]
        simp only [List.length_cons] at hl ⊢
        omega
      exact chunksOf_two_even ((x :: xs).drop 2) hl2 c he
termination_by l => l.length
decreasing_by
  simp only [List.length_drop, List.length_cons]
  omega

lemma foldCols_ok (w h : Nat) (sc : F) (hh : 0 < h) (cols : List (List F)) :
    ∀ (k : Nat) (img : Img), (∀ c ∈ cols, c.length = 2) → k + cols.length ≤ w →
    ∃ img', List.foldlM
        (fun im ic => drawColumn w h sc (F.fin ((h : ℚ) / 2)) im ic.1 ic.2)
        img (List.enumFrom k cols) = Except.ok img' := by
  induction cols with
  | nil => intro k img _ _; exact ⟨img, rfl⟩
  | cons c cs ih =>
    intro k img hall hk
    have henum : List.enumFrom k (c :: cs) = (k, c) :: List.enumFrom (k + 1) cs := rfl
    rw [henum, List.foldlM_cons]
    obtain ⟨img1, h1⟩ := drawColumn_ok w h k sc img c
      (by simp only [List.length_cons] at hk; omega) hh (hall c (by simp))
    rw [h1, ok_bind]
    exact ih (k + 1) img1 (fun d hd => hall d (by simp [hd]))
      (by simp only [List.length_cons] at hk ⊢; omega)

lemma render_plot_ok (hist : List F) (w h : Nat) (hh : 0 < h)
    (hev : hist.length % 2 = 0) :
    ∃ img, render_plot hist w h = Except.ok img := by
  unfold render_plot
  rw [centerY_eq]
  show ∃ img, List.foldlM _ _ (List.enumFrom 0 _) = Except.ok img
  have hcols : ∀ c ∈ (chunksOf 2 hist).take w, c.length = 2 := fun c hc =>
    chunksOf_two_even hist hev c (List.mem_of_mem_take hc)
  have hlen : 0 + ((chunksOf 2 hist).take w).length ≤ w := by
    rw [List.length_take]
    have := Nat.min_le_left w (chunksOf 2 hist).length
    omega
  exact foldCols_ok w h (scale_of hist) hh _ 0 _ hcols hlen

lemma process_audio_even (st : ProcState) (b : List F)
    (hst : st.history.length % 2 = 0) :
    (process_audio st b).history.length % 2 = 0 := by
  show (trim (st.history ++ min_max_data (st.carry ++ b))).length % 2 = 0
  rw [trim_length, List.length_append, min_max_data_length]
  split
  · decide
  · omega

lemma foldl_process_even (bufs : List (List F)) : ∀ st : ProcState,
    st.history.length % 2 = 0 → (bufs.foldl process_audio st).history.length % 2 = 0 := by
  induction bufs with
  | nil => intro st h; exact h
  | cons b bs ih => intro st h; exact ih _ (process_audio_even st b h)

/-- C10: process_audio always appends two values per complete chunk and
trimming only removes oldest entries down to the even cap, so the history
length stays even for every run of the pipeline from the initial state; on
such histories render_plot completes without panicking (in particular the
unchecked `chunk[1]` access of each 2-element chunk is in bounds), while on
an odd-length slice such as [1.0] the `chunk[1]` access is out of bounds. -/
theorem C10_chunk_index_safety (bufs : List (List F)) (w h : Nat) (hh : 0 < h) :
    (run_audio bufs).history.length % 2 = 0 ∧
    (∃ img, render_plot ((run_audio bufs).history) w h = Except.ok img) ∧
    render_plot [F.fin 1] 1 1 = Except.error RPanic.chunkIndex := by
  have heven : (run_audio bufs).history.length % 2 = 0 :=
    foldl_process_even bufs initState rfl
  refine ⟨heven, render_plot_ok _ w h hh heven, ?_⟩
  have hnil : chunksOf 2 ([] : List F) = [] := by rw [chunksOf]
  have hch : chunksOf 2 [F.fin 1] = [[F.fin 1]] := by
    rw [chunksOf_eq_cons 2 [F.fin 1] (by norm_num) (by simp)]
    show [F.fin 1] :: chunksOf 2 [] = [[F.fin 1]]
    rw [hnil]
  unfold render_plot
  rw [hch]
  rfl

/-- C10 witness: the safety theorem applied to the empty buffer sequence on a
concrete 1 x 1 canvas. -/
theorem C10_witness :
    0 < 1 ∧
    ((run_audio []).history.length % 2 = 0 ∧
      (∃ img, render_plot ((run_audio []).history) 1 1 = Except.ok img) ∧
      render_plot [F.fin 1] 1 1 = Except.error RPanic.chunkIndex) :=
  ⟨by decide, C10_chunk_index_safety [] 1 1 (by decide)⟩

end Rmnc
